import Mathlib

/-!
Verification development for the octox kernel (a Rust port of xv6).

Each definition below is a shallow embedding of a function of the
repository, translated from the source file named in its doc comment.
Machine integers are modelled as `Nat` (the embedded code never
overflows on the inputs considered, except where a `% 2 ^ w` is written
explicitly).  Fallible code returns `Except`/`Option`; a Rust `panic!`
or a panicking slice index is modelled as an `error`/`none` result.
-/

/-! ## Constants (kernel/fs.rs) -/

/-- `BSIZE` (fs.rs): block size in bytes. -/
def BSIZE : Nat := 1024

/-- `FSMAGIC` (fs.rs). -/
def FSMAGIC : Nat := 0x10203040

/-- `NDIRECT` (fs.rs): number of direct block slots of an inode. -/
def NDIRECT : Nat := 12

/-- `NINDIRECT` (fs.rs): `BSIZE / size_of::<u32>()`. -/
def NINDIRECT : Nat := BSIZE / 4

/-- `MAXFILE` (fs.rs): `NDIRECT + NINDIRECT`. -/
def MAXFILE : Nat := NDIRECT + NINDIRECT

/-- `BPB` (fs.rs): bitmap bits per block, `BSIZE * 8`. -/
def BPB : Nat := BSIZE * 8

/-- `DIRSIZ` (fs.rs): maximum stored directory-entry name length. -/
def DIRSIZ : Nat := 14

/-- Modelled from the spec: `MAXOPBLOCKS` of `param.rs`, which is not among
the staged sources (only its users are).  The spec's glossary defines it as
the per-syscall block budget; the xv6 lineage value is 10. -/
def MAXOPBLOCKS : Nat := 10

/-- Modelled from the spec: `LOGSIZE` of `param.rs` (absent from the staged
sources).  xv6 lineage value `3 * MAXOPBLOCKS`. -/
def LOGSIZE : Nat := 3 * MAXOPBLOCKS

/-! ## C3: fs::init superblock magic check (fs.rs, `init`)

The source reads the superblock and then runs
`assert!(sb.magic != FSMAGIC, "invalid file system")`.
`assert!(cond, msg)` panics exactly when `cond` is false, so this
panics exactly when `magic == FSMAGIC`.  The embedding returns
`error` for the panic and `ok` for the non-panicking path. -/

/-- Embeds the magic-number check of `fs::init` (fs.rs): panics
(`error`) iff the assert condition `magic != FSMAGIC` is false. -/
def fsInitCheck (magic : Nat) : Except String Unit :=
  if magic ≠ FSMAGIC then Except.ok () else Except.error "invalid file system"

/-! ## C7: free-bitmap block addressing (fs.rs `SuperBlock::bblock`, mkfs) -/

/-- Embeds `SuperBlock::bblock` (fs.rs): `b + BPB + self.bmapstart`. -/
def bblock (bmapstart b : Nat) : Nat := b + BPB + bmapstart

/-- The bitmap-block formula the claim states (and that `mkfs/main.rs`
realises on disk: `balloc` there sets bit `i` of block `sb.bmapstart`
for every allocated block `i`): block `bmapstart + b / BPB`. -/
def bblockClaim (bmapstart b : Nat) : Nat := bmapstart + b / BPB

/-- The superblock `mkfs/main.rs` writes: `bmapstart = 2 + NLOG +
NINODEBLOCKS = 2 + 30 + (200 / 16 + 1) = 45`. -/
def mkfsBmapstart : Nat := 2 + LOGSIZE + (200 / 16 + 1)

/-! ## C9: process-slot allocation (proc.rs `Procs::alloc_proc`, `fork`) -/

/-- Process states (proc.rs `ProcState`). -/
inductive ProcState where
  | UNUSED
  | USED
  | SLEEPING
  | RUNNABLE
  | RUNNING
  | ZOMBIE
deriving DecidableEq

/-- Embeds the scan of `Procs::alloc_proc` (proc.rs): the `for` loop
matches the first slot's state; `UNUSED` allocates it, every other
state hits the `_ => return None` arm, so the scan never advances past
slot 0.  The trapframe- and page-table allocations are assumed to
succeed (the claim's hypothesis), so the `UNUSED` arm yields the slot
index. -/
def alloc_proc (pool : List ProcState) : Option Nat :=
  match pool with
  | [] => none
  | s :: _ => match s with
    | ProcState.UNUSED => some 0
    | _ => none

/-- Embeds the slot-allocation outcome of `fork` (proc.rs):
`PROCS.alloc_proc().ok_or(())?` — an `Err` exactly when `alloc_proc`
found no slot (user-memory copy and the rest assumed to succeed). -/
def forkAlloc (pool : List ProcState) : Except String Nat :=
  match alloc_proc pool with
  | some i => Except.ok i
  | none => Except.error "fork: out of process slots"

/-! ## C4: buffer pin/unpin and the recycling scan (bio.rs) -/

/-- Embeds `BufGuard::pin` (bio.rs): it calls
`Arc::decrement_strong_count`, so the reference count goes down. -/
def bpin (rc : Nat) : Nat := rc - 1

/-- Embeds `BufGuard::unpin` (bio.rs): it calls
`Arc::increment_strong_count`, so the reference count goes up. -/
def bunpin (rc : Nat) : Nat := rc + 1

/-- A buffer as the cache scans see it: `(dev, blockno)` of its control
record and its `Arc` strong count (bio.rs `Buf`). -/
structure BufM where
  dev : Nat
  blockno : Nat
  rc : Nat
deriving DecidableEq

/-- Embeds the first scan of `BCache::get` (bio.rs): head-to-tail for a
buffer whose `(dev, blockno)` matches; yields its index. -/
def bgetCached (bufs : List BufM) (dev blockno : Nat) : Option Nat :=
  bufs.findIdx? (fun b => b.dev == dev && b.blockno == blockno)

/-- Embeds the second scan of `BCache::get` (bio.rs): tail-to-head
(`lru.iter().rev()`) for a buffer with `Arc::strong_count == 1`, which
gets repurposed; yields its index in the original order. -/
def bgetRecycle (bufs : List BufM) : Option Nat :=
  match bufs.reverse.findIdx? (fun b => b.rc == 1) with
  | some j => some (bufs.length - 1 - j)
  | none => none

/-- Embeds `BCache::get` (bio.rs) at the level of which buffer is
selected: the cached match if any, else the recycled buffer, else a
panic (`none`, "no buffers"). -/
def bget (bufs : List BufM) (dev blockno : Nat) : Option Nat :=
  match bgetCached bufs dev blockno with
  | some i => some i
  | none => bgetRecycle bufs

/-! ## C1: fork's user-memory copy (vm.rs `Uvm::copy`) -/

/-- `size_of::<Uvm>()` on the 64-bit target: `Uvm` holds one raw
pointer (`PageTable { ptr, PhantomData }`), 8 bytes. -/
def UVMSIZE : Nat := 8

/-- Embeds the per-page copy of `Uvm::copy` (vm.rs): the loop allocates
`Box::<Uvm>::try_new_zeroed()` — an `UVMSIZE`-byte allocation — and runs
`*mem = *(pa as *mut Uvm)`, copying exactly `UVMSIZE` bytes of the
parent's page; the child's page from byte `UVMSIZE` on is whatever heap
memory follows the allocation (`heapResidue`), not the parent's bytes. -/
def uvmCopyPage (parentPage heapResidue : Nat → Nat) : Nat → Nat :=
  fun i => if i < UVMSIZE then parentPage i else heapResidue i

/-- Embeds `Uvm::copy` (vm.rs) over whole address spaces: the loop runs
`va = 0, PGSIZE, ...` while `va < size`, so it visits page indices
`0 ..< npagesOf size`; page `pg` of the child is `uvmCopyPage` of the
parent's page `pg`.  Flags are passed through unchanged (`pte.flags()`),
so only the byte contents are modelled. -/
def npagesOf (size : Nat) : Nat := (size + 4095) / 4096

/-- Child memory after `Uvm::copy` (vm.rs), page by page. -/
def uvmCopyChild (parentMem heapResidue : Nat → Nat → Nat) : Nat → Nat → Nat :=
  fun pg => uvmCopyPage (parentMem pg) (heapResidue pg)

/-! ## C2: inode read/write (fs.rs `IData::read`, `IData::write`)

The disk is a map from block number to block content (a byte map);
`fileBlock` abstracts `IData::bmap` as a total map from the file-block
index to its disk block — faithful to `bmap` when every `addrs` entry
the loop touches is already allocated (nonzero), since `bmap` then
performs no allocation and just returns the recorded block number.
Kernel-side `either_copyin`/`either_copyout` copy exactly the length of
the slice they are handed.  Both loops hand them
`bp[(off % BSIZE)..m]` — start `off % BSIZE`, end `m` — which is empty
when `off % BSIZE = m` and panics when `m < off % BSIZE`. -/

/-- Disk contents: block number to byte map. -/
def DiskB : Type := Nat → Nat → Nat

/-- One iteration's effect of the `IData::write` loop on block `b`
(fs.rs): `either_copyin(&mut bp[o..m], src)` writes the `m - o` bytes
`src 0, ..., src (m - o - 1)` to block positions `o ..< m`. -/
def wrCopy (blk src : Nat → Nat) (o m : Nat) : Nat → Nat :=
  fun j => if o ≤ j ∧ j < m then src (j - o) else blk j

/-- The `while tot < n` loop of `IData::write` (fs.rs).  `remaining` is
`n - tot`, `srcpos` the offset `src` has been advanced by.  Each pass:
`o = off % BSIZE`, `m = min(n - tot, BSIZE - o)`, slice `bp[o..m]`
(panic — `none` — when `m < o`), then `tot += m; off += m; src += m`.
`fuel` bounds the iterations; `remaining` falls by `m ≥ 1` each pass,
so `fuel = n` always suffices. -/
def iWriteLoop (fileBlock src : Nat → Nat) :
    Nat → Nat → Nat → Nat → DiskB → Option DiskB
  | 0, _, _, remaining, d => if remaining = 0 then some d else none
  | fuel + 1, off, srcpos, remaining, d =>
    if remaining = 0 then some d
    else
      let o := off % BSIZE
      let m := min remaining (BSIZE - o)
      if m < o then none
      else
        let b := fileBlock (off / BSIZE)
        let d1 : DiskB :=
          fun bn => if bn = b then wrCopy (d b) (fun k => src (srcpos + k)) o m else d bn
        iWriteLoop fileBlock src fuel (off + m) (srcpos + m) (remaining - m) d1

/-- Embeds `IData::write` (fs.rs): errors when `off > size` or
`off + n > MAXFILE * BSIZE`; otherwise runs the loop and finally grows
`size` to the advanced `off` when that exceeds it (`update` writes the
inode back, modelled by returning the new size).  Yields
`(disk, written count, new size)`. -/
def iWrite (size : Nat) (fileBlock : Nat → Nat) (d : DiskB) (src : Nat → Nat)
    (off n : Nat) : Except String (DiskB × Nat × Nat) :=
  if size < off then Except.error "inode write: off is more than inode size"
  else if MAXFILE * BSIZE < off + n then Except.error "inode write"
  else
    match iWriteLoop fileBlock src n off 0 n d with
    | some d1 => Except.ok (d1, n, max size (off + n))
    | none => Except.error "panic: slice start is larger than its end"

/-- One iteration's effect of the `IData::read` loop on the destination
buffer (fs.rs): `either_copyout(dst, &bp[o..m])` writes the `m - o`
block bytes `blk o, ..., blk (m - 1)` to `dst` positions
`dstpos ..< dstpos + (m - o)`. -/
def rdCopy (dst blk : Nat → Nat) (dstpos o m : Nat) : Nat → Nat :=
  fun j => if dstpos ≤ j ∧ j < dstpos + (m - o) then blk (o + (j - dstpos)) else dst j

/-- The `while tot < n` loop of `IData::read` (fs.rs), mirroring
`iWriteLoop`: slice `bp[o..m]` copied out, then
`tot += m; off += m; dst += m`. -/
def iReadLoop (fileBlock : Nat → Nat) (d : DiskB) :
    Nat → Nat → Nat → Nat → (Nat → Nat) → Option (Nat → Nat)
  | 0, _, _, remaining, dst => if remaining = 0 then some dst else none
  | fuel + 1, off, dstpos, remaining, dst =>
    if remaining = 0 then some dst
    else
      let o := off % BSIZE
      let m := min remaining (BSIZE - o)
      if m < o then none
      else
        let dst1 := rdCopy dst (d (fileBlock (off / BSIZE))) dstpos o m
        iReadLoop fileBlock d fuel (off + m) (dstpos + m) (remaining - m) dst1

/-- Embeds `IData::read` (fs.rs): errors when `off > size`, truncates
`n` to `size - off`, runs the loop and yields the final destination
buffer together with the returned count `tot = n`. -/
def iRead (size : Nat) (fileBlock : Nat → Nat) (d : DiskB) (dst : Nat → Nat)
    (off n : Nat) : Except String ((Nat → Nat) × Nat) :=
  if size < off then Except.error "start point beyond the end of the file"
  else
    let n1 := if size < off + n then size - off else n
    match iReadLoop fileBlock d n1 off 0 n1 dst with
    | some dst1 => Except.ok (dst1, n1)
    | none => Except.error "panic: slice start is larger than its end"

/-- The byte the round trip hands back: write one byte `5` at offset 1
of a 1024-byte file whose block is preallocated (all zero), then read
one byte at offset 1 into a zeroed buffer; the value of that buffer's
byte 0 afterwards. -/
def c2Readback : Nat :=
  match iWrite 1024 (fun _ => 7) (fun _ _ => 0) (fun _ => 5) 1 1 with
  | Except.ok (d1, _, sz) =>
    match iRead sz (fun _ => 7) d1 (fun _ => 0) 1 1 with
    | Except.ok (dst1, _) => dst1 0
    | Except.error _ => 998
  | Except.error _ => 999

/-! ## C8: directory linking (fs.rs `IData::dirlink`, `IData::dirlookup`)

A directory entry is 16 bytes: `inum : u16` and a 14-byte name.  The
loops read successive entries through `IData::read`; `readEnt`
abstracts what each such read leaves in the stack entry `de` at a given
offset (for an empty directory it is never consulted).  Names are byte
lists; the stored name is compared after `trim_matches(char::from(0))`,
which strips NUL bytes from both ends. -/

/-- Rust `str::trim_matches(char::from(0))` on a byte list: drop NUL
(0) bytes from both ends. -/
def trim0 (l : List Nat) : List Nat :=
  ((l.dropWhile (· == 0)).reverse.dropWhile (· == 0)).reverse

/-- The entry offsets `(0..size).step_by(size_of::<DirEnt>())` visits:
`0, 16, 32, ...` below `size`. -/
def entOffsets (size : Nat) : List Nat :=
  (List.range ((size + 15) / 16)).map (· * 16)

/-- Embeds `IData::dirlookup` (fs.rs): scan the entries; skip
`inum == 0`; match when the NUL-trimmed stored name equals `name`;
yield the matching offset. -/
def dirlookupM (size : Nat) (readEnt : Nat → Nat × List Nat) (name : List Nat) :
    Option Nat :=
  (entOffsets size).find? (fun off =>
    let e := readEnt off
    e.1 != 0 && trim0 e.2 == name)

/-- Embeds the free-slot scan of `IData::dirlink` (fs.rs): `offset`
starts at 0 and is incremented by 16 after each entry is read — before
the `inum == 0` test — so the loop leaves `offset` one entry past the
first free slot (or at the end when none is free). -/
def freeSlotScan (readEnt : Nat → Nat × List Nat) : List Nat → Nat → Nat
  | [], acc => acc
  | off :: rest, acc =>
    if (readEnt off).1 = 0 then acc + 16 else freeSlotScan readEnt rest (acc + 16)

/-- Embeds `IData::dirlink` (fs.rs): refuse a present name; find the
write offset with the free-slot scan; then
`de.name.copy_from_slice(&name.as_bytes()[0..DIRSIZ])` — slicing 14
bytes out of `name`, which panics (`error`) whenever `name` is shorter
than `DIRSIZ` — and `de.inum = inum as u16`.  Yields the offset the
entry is written at and the entry `(inum mod 2^16, name bytes)`. -/
def dirlinkM (size : Nat) (readEnt : Nat → Nat × List Nat) (name : List Nat)
    (inum : Nat) : Except String (Nat × Nat × List Nat) :=
  if (dirlookupM size readEnt name).isSome then
    Except.error "dirlink: the name already exists"
  else
    let offset := freeSlotScan readEnt (entOffsets size) 0
    if name.length < DIRSIZ then
      Except.error "panic: range end index 14 out of range"
    else Except.ok (offset, inum % 65536, name.take DIRSIZ)

/-- An all-free two-entry directory view: every read yields a free
entry (`inum = 0`, zero name). -/
def freeEnt : Nat → Nat × List Nat := fun _ => (0, List.replicate 14 0)

/-! ## C5: log transaction accounting (log.rs `begin_op`, `Mutex<Log>::write`, `end_op`)

State of the log as the three entry points update it under the log
lock.  `n` is `lh.n`; `committing` the flag; `rem` tracks, for each
outstanding operation, how many more blocks it may still append — a
ghost of the claim's precondition that one bracketed operation
`log_write`s at most `MAXOPBLOCKS` distinct blocks, so appends at most
`MAXOPBLOCKS` entries.  `outstanding` of the source is `rem.length`
(`begin_op` pushes one entry, `end_op` removes one).  The step relation
is parametric in `M = MAXOPBLOCKS` and `L = LOGSIZE`; the log device
size `sb.nlog` equals `LOGSIZE` (mkfs sets `nlog = NLOG = LOGSIZE`), so
`log_write`'s panic guard `n >= LOGSIZE || n >= size - 1` is
`¬(n + 1 < L)`. -/

structure LogSt where
  n : Nat
  rem : List Nat
  committing : Bool
deriving DecidableEq

/-- The initial log state: `Log::new` runs recovery and leaves
`lh.n = 0`, `outstanding = 0`, `committing = false`. -/
def logInit : LogSt := ⟨0, [], false⟩

/-- One call of `begin_op`, `LOG.write` or `end_op` (log.rs), as a step
of the lock-protected state.  Panicking calls are not steps. -/
inductive LogStep (M L : Nat) : LogSt → LogSt → Prop where
  /-- `begin_op`: proceeds (instead of sleeping) when not committing
  and `n + (outstanding + 1) * MAXOPBLOCKS ≤ LOGSIZE`; then
  `outstanding += 1`.  The new operation's append budget is `M`. -/
  | beginOp (s : LogSt) :
      s.committing = false →
      s.n + (s.rem.length + 1) * M ≤ L →
      LogStep M L s ⟨s.n, M :: s.rem, false⟩
  /-- `LOG.write` appending a block not yet in `lh.block[0..n]`:
  requires an outstanding operation with budget left (the claim's
  precondition), passes the panic guards, pins and does `lh.n += 1`. -/
  | writeNew (s : LogSt) (i : Nat) (h : i < s.rem.length) :
      0 < s.rem.get ⟨i, h⟩ →
      s.n + 1 < L →
      LogStep M L s ⟨s.n + 1, s.rem.set i (s.rem.get ⟨i, h⟩ - 1), s.committing⟩
  /-- `LOG.write` absorbing a block already in `lh.block[0..n]`: the
  state is unchanged. -/
  | writeAbsorb (s : LogSt) (i : Nat) :
      i < s.rem.length →
      0 < s.n →
      s.n + 1 < L →
      LogStep M L s s
  /-- `end_op` (non-panicking, so not committing): `outstanding -= 1`;
  when it reaches zero, `committing` is set and commit follows. -/
  | endOp (s : LogSt) (i : Nat) :
      i < s.rem.length →
      s.committing = false →
      LogStep M L s ⟨s.n, s.rem.eraseIdx i, decide (s.rem.length = 1)⟩
  /-- The commit `end_op` performs after setting `committing`:
  `commit()` writes the log and clears it (`lh.n = 0`), then
  `committing = false`. -/
  | commitEnd (s : LogSt) :
      s.committing = true →
      LogStep M L s ⟨0, s.rem, false⟩

/-- States reachable from the initial log state by `begin_op`,
`log_write` and `end_op` steps. -/
inductive LogReach (M L : Nat) : LogSt → Prop where
  | init : LogReach M L logInit
  | step (s t : LogSt) : LogReach M L s → LogStep M L s t → LogReach M L t

/-! ## C6: log recovery (log.rs `Log::recover`, `install_trans`, `read_head`, `write_head`)

The header block holds `LogHeader { n : u32, block : [u32; LOGSIZE] }`
in its first `1 + LOGSIZE` 32-bit words; every access the recovery path
makes is through those words (`align_to::<LogHeader>()`) or copies
whole blocks, so a block is modelled at word granularity as
`Nat → Nat` and the disk as `Nat → Nat → Nat` (block number, word
index).  `read_head` decodes the words into the in-memory header;
`write_head` writes the in-memory header over the first `1 + LOGSIZE`
words of the header block, leaving the rest of the block as it was.
During recovery the buffer cache is a transparent view of the disk
(every `BCACHE.read` misses and `write` goes straight to disk), so the
embedding acts on the disk directly. -/

/-- In-memory log header (log.rs `LogHeader`): `n` and the block-number
array, as a total word map (only indices below `LOGSIZE` are ever
read). -/
structure LogHdr where
  n : Nat
  blk : Nat → Nat

/-- Embeds `read_head` (log.rs): word 0 of the header block is `n`,
words `1, 2, ...` are `block[0], block[1], ...`. -/
def decodeHdr (b : Nat → Nat) : LogHdr := ⟨b 0, fun i => b (i + 1)⟩

/-- Embeds the effect of `write_head` (log.rs) on the header block's
words, with `Lsz` the `LOGSIZE` array length: word 0 becomes `h.n`,
words `1 .. Lsz` become the block array, later words keep their old
content `b`. -/
def encodeHdr (Lsz : Nat) (h : LogHdr) (b : Nat → Nat) : Nat → Nat :=
  fun i => if i = 0 then h.n else if i ≤ Lsz then h.blk (i - 1) else b i

/-- Replace one disk block. -/
def updD (d : Nat → Nat → Nat) (a : Nat) (v : Nat → Nat) : Nat → Nat → Nat :=
  fun x => if x = a then v else d x

/-- Embeds `install_trans` (log.rs): for `tail in 0..lh.n`, copy log
block `start + tail + 1` over home block `lh.block[tail]`, in order
(each copy reads the disk as left by the previous ones). -/
def installTrans (start : Nat) (h : LogHdr) (d : Nat → Nat → Nat) :
    Nat → Nat → Nat :=
  (List.range h.n).foldl (fun dd k => updD dd (h.blk k) (dd (start + k + 1))) d

/-- Embeds `Log::recover` (log.rs): `read_head`; `install_trans`
(replay `n` blocks); set `lh.n = 0`; `write_head` (the block array of
the in-memory header is written back unchanged). -/
def recoverD (Lsz start : Nat) (d : Nat → Nat → Nat) : Nat → Nat → Nat :=
  let h := decodeHdr (d start)
  let d1 := installTrans start h d
  updD d1 start (encodeHdr Lsz ⟨0, h.blk⟩ (d1 start))

/-! ## C10: path element splitting and lookup (fs.rs `Path::skip_elem`, `Path::namex`)

Paths are byte lists; `/` is byte 47.  `Path::skip_elem` runs
`self.inner.trim_matches('/').split_once('/')`:

* `Some((name, path))` with `name.len() <= DIRSIZ` yields
  `(Some(name), Some(path))`;
* `None` with `0 < self.inner.len() && self.inner.len() < DIRSIZ` —
  note: the length of the *untrimmed* `inner` — yields
  `(Some(&self.inner), None)`;
* anything else yields `(None, None)`.

`Path::namex` loops: lock the current inode, fail unless it is a
directory, and dispatch on `skip_elem` of the remaining path; the
directory state is abstracted as `isDir` (the locked inode's
`itype == Dir`) and `lookup` (`dirlookup` by inode and name).  The loop
always shortens the remaining path, so a fuel of `length + 1` runs it
to completion. -/

/-- Rust `str::trim_matches('/')` on a byte list: drop 47 from both
ends. -/
def trimSlash (l : List Nat) : List Nat :=
  ((l.dropWhile (· == 47)).reverse.dropWhile (· == 47)).reverse

/-- Rust `str::split_once('/')` on a byte list: the parts before and
after the first 47, or `none` when there is no 47. -/
def splitOnce : List Nat → Option (List Nat × List Nat)
  | [] => none
  | a :: t =>
    if a = 47 then some ([], t)
    else (splitOnce t).map (fun p => (a :: p.1, p.2))

/-- Embeds `Path::skip_elem` (fs.rs). -/
def skipElem (p : List Nat) : Option (List Nat) × Option (List Nat) :=
  match splitOnce (trimSlash p) with
  | some (name, rest) =>
    if name.length ≤ DIRSIZ then (some name, some rest) else (none, none)
  | none =>
    if 0 < p.length ∧ p.length < DIRSIZ then (some p, none) else (none, none)

/-- Embeds the loop of `Path::namex` (fs.rs), fuel-bounded.  Each pass:
not a directory — `None`; `(Some name, Some rest)` — look the name up
and continue (miss — `None`); `(Some name, None)` — final component:
the parent variant yields `(name, ip)`, otherwise the lookup result;
`(None, _)` — `None`. -/
def namexGo (isDir : Nat → Bool) (lookup : Nat → List Nat → Option Nat)
    (parent : Bool) : Nat → Nat → List Nat → Option (List Nat × Nat)
  | 0, _, _ => none
  | fuel + 1, ip, p =>
    if isDir ip then
      match skipElem p with
      | (some name, some rest) =>
        match lookup ip name with
        | some nip => namexGo isDir lookup parent fuel nip rest
        | none => none
      | (some name, none) =>
        if parent then some (name, ip)
        else
          match lookup ip name with
          | some nip => some (name, nip)
          | none => none
      | (none, _) => none
    else none

/-- `Path::namex` (fs.rs) from inode `ip` (the root inode for an
absolute path, the cwd otherwise — the caller picks): the loop with
enough fuel to run to completion. -/
def namexM (isDir : Nat → Bool) (lookup : Nat → List Nat → Option Nat)
    (parent : Bool) (ip : Nat) (p : List Nat) : Option (List Nat × Nat) :=
  namexGo isDir lookup parent (p.length + 1) ip p

/-- The last path component, fuel-bounded: strip leading components
the way `skip_elem` does; when no `/` remains in the trimmed rest, that
trimmed rest (empty — no component). -/
def lastCompGo : Nat → List Nat → Option (List Nat)
  | 0, _ => none
  | fuel + 1, p =>
    match splitOnce (trimSlash p) with
    | some (_, rest) => lastCompGo fuel rest
    | none => if trimSlash p = [] then none else some (trimSlash p)

/-- The last component of a path (fuel `length + 1` always suffices). -/
def lastComp (p : List Nat) : Option (List Nat) := lastCompGo (p.length + 1) p

/-- Every inode is a directory (for concrete evaluations). -/
def allDir : Nat → Bool := fun _ => true

/-- A directory state where every lookup hits inode 5 (for concrete
evaluations: resolution failure then cannot come from a missing
entry). -/
def lookupAlways : Nat → List Nat → Option Nat := fun _ _ => some 5

/-- The absolute path `/aaaaaaaaaaaaa`: a leading slash and a 13-byte
final component, 14 bytes in all. -/
def path13abs : List Nat := 47 :: List.replicate 13 97

/-! ## Theorems -/

/-- C3 (code_bug): `fs::init` panics with "invalid file system" exactly
on a superblock whose magic IS `0x10203040` — the assert is inverted.
Evaluated: the valid magic panics, a corrupt magic (0) is accepted. -/
theorem c3_init_rejects_valid_magic :
    fsInitCheck 0x10203040 = Except.error "invalid file system" ∧
    fsInitCheck 0 = Except.ok () := by
  constructor <;> rfl

/-- C7 (code_bug): `SuperBlock::bblock` computes `b + BPB + bmapstart`
instead of `bmapstart + b / BPB`; with the superblock `mkfs` writes
(`bmapstart = 45`) the bit of block 0 is looked for in block 8237 while
`mkfs` records it in block 45. -/
theorem c7_bblock_wrong_block :
    mkfsBmapstart = 45 ∧
    bblock mkfsBmapstart 0 = 8237 ∧
    bblockClaim mkfsBmapstart 0 = 45 ∧
    bblock mkfsBmapstart 0 ≠ bblockClaim mkfsBmapstart 0 := by
  refine ⟨rfl, rfl, rfl, ?_⟩
  decide

/-- C9 (code_bug): `alloc_proc` aborts the scan at the first
non-`UNUSED` slot (`_ => return None`), so with slot 0 `USED` and slot 1
`UNUSED` it finds nothing and `fork` fails, although an `UNUSED` slot
exists. -/
theorem c9_alloc_proc_aborts_scan :
    alloc_proc [ProcState.USED, ProcState.UNUSED] = none ∧
    ProcState.UNUSED ∈ [ProcState.USED, ProcState.UNUSED] ∧
    forkAlloc [ProcState.USED, ProcState.UNUSED] =
      Except.error "fork: out of process slots" := by
  refine ⟨rfl, ?_, rfl⟩
  decide

/-- C4 (code_bug): `BufGuard::pin` decrements the `Arc` strong count
and `unpin` increments it — the reverse of the claim (and of the
`log.rs` comment "pin in the cache by increasing refcnt").  A buffer
checked out once (count 2, here caching block `(1, 5)`) that the log
pins drops to count 1, and `BCache::get` for the uncached block
`(1, 7)` then repurposes exactly that buffer (index 0). -/
theorem c4_pin_lowers_refcount :
    bpin 2 = 1 ∧
    bunpin 2 = 3 ∧
    bget [⟨1, 5, bpin 2⟩, ⟨1, 6, 2⟩] 1 7 = some 0 := by
  refine ⟨rfl, rfl, ?_⟩
  decide

/-- C1 (code_bug): `Uvm::copy` copies only `size_of::<Uvm>() = 8` bytes
of each page (`*mem = *(pa as *mut Uvm)` into a `Box::<Uvm>`
allocation), so a parent page whose byte 8 is 1 yields a child page
whose byte 8 is the heap residue 0 — the child is not byte-for-byte
equal to the parent on `[0, sz)`. -/
theorem c1_copy_not_bytewise :
    npagesOf 4096 = 1 ∧
    (fun _ i => if i = 8 then 1 else 0 : Nat → Nat → Nat) 0 8 = 1 ∧
    uvmCopyChild (fun _ i => if i = 8 then 1 else 0) (fun _ _ => 0) 0 8 = 0 := by
  refine ⟨rfl, ?_, ?_⟩ <;> decide

/-- C2 (code_bug): the read/write loops slice `bp[(off % BSIZE)..m]`
instead of `bp[(off % BSIZE)..(off % BSIZE) + m]`, so at offset 1 with
`n = 1` the slice `bp[1..1]` is empty: the write transfers 0 bytes
(while reporting 1 written) and the read hands back the destination
buffer unchanged — 0, not the written 5.  Write-then-read at a
non-block-aligned offset does not return the bytes written. -/
theorem c2_roundtrip_fails :
    c2Readback = 0 ∧ c2Readback ≠ 5 := by
  constructor
  · rfl
  · decide

/-- C8 (code_bug): `dirlink` slices `name.as_bytes()[0..DIRSIZ]`, which
panics for every name shorter than 14 bytes — including the name "."
(byte 46) that `create` links into every new directory; nothing is ever
NUL-padded.  And for a 14-byte name into a directory whose first slot
(offset 0) is free, the entry is written at offset 16, one slot past
the first free slot. -/
theorem c8_dirlink_panics_on_short_name :
    dirlinkM 0 freeEnt [46] 1 =
      Except.error "panic: range end index 14 out of range" ∧
    dirlinkM 32 freeEnt (List.replicate 14 97) 1 =
      Except.ok (16, 1, List.replicate 14 97) ∧
    (16 : Nat) ≠ 0 := by
  refine ⟨rfl, ?_, by decide⟩
  rfl

/-- Every element of a list of naturals bounded by `M` bounds the sum
by `length * M`. -/
theorem listSumLeLenMul (l : List Nat) (M : Nat) (h : ∀ b ∈ l, b ≤ M) :
    l.sum ≤ l.length * M := by
  induction l with
  | nil => simp
  | cons a t ih =>
    have ha : a ≤ M := h a (List.mem_cons_self a t)
    have ht : t.sum ≤ t.length * M := ih (fun b hb => h b (List.mem_cons_of_mem a hb))
    simp only [List.sum_cons, List.length_cons]
    calc a + t.sum ≤ M + t.length * M := Nat.add_le_add ha ht
      _ = (t.length + 1) * M := by ring

/-- Decrementing a positive entry of a list of naturals lowers the sum
by exactly one. -/
theorem listSumSetPred (l : List Nat) (i : Nat) (h : i < l.length)
    (hp : 0 < l.get ⟨i, h⟩) :
    (l.set i (l.get ⟨i, h⟩ - 1)).sum + 1 = l.sum := by
  induction l generalizing i with
  | nil => simp at h
  | cons a t ih =>
    cases i with
    | zero =>
      simp only [List.get, List.set, List.sum_cons]
      simp only [List.get] at hp
      omega
    | succ j =>
      have hj : j < t.length := by simpa using h
      have hp2 : 0 < t.get ⟨j, hj⟩ := by simpa using hp
      have ih2 := ih j hj hp2
      simp only [List.set, List.sum_cons, List.get]
      omega

/-- Removing an index never raises the sum of a list of naturals. -/
theorem listSumEraseIdxLe (l : List Nat) (i : Nat) :
    (l.eraseIdx i).sum ≤ l.sum := by
  induction l generalizing i with
  | nil => simp [List.eraseIdx]
  | cons a t ih =>
    cases i with
    | zero =>
      simp only [List.eraseIdx, List.sum_cons]
      omega
    | succ j =>
      have := ih j
      simp only [List.eraseIdx, List.sum_cons]
      omega

/-- Membership in `eraseIdx` implies membership in the list. -/
theorem memOfMemEraseIdx (l : List Nat) (i : Nat) (b : Nat)
    (hb : b ∈ l.eraseIdx i) : b ∈ l := by
  induction l generalizing i with
  | nil => simp [List.eraseIdx] at hb
  | cons a t ih =>
    cases i with
    | zero =>
      simp only [List.eraseIdx] at hb
      exact List.mem_cons_of_mem a hb
    | succ j =>
      simp only [List.eraseIdx] at hb
      rcases List.mem_cons.mp hb with h1 | h1
      · exact h1 ▸ List.mem_cons_self a t
      · exact List.mem_cons_of_mem a (ih j h1)

/-- C5 (corrected): in every state reachable by `begin_op`, `log_write`
and `end_op` steps under the claim's precondition, `lh.n` plus the sum
of the outstanding operations' remaining append budgets is at most
`LOGSIZE`, and each budget is at most `MAXOPBLOCKS`.  This is the
inductive form of the claimed bound; the claimed
`n + outstanding * MAXOPBLOCKS ≤ LOGSIZE` itself fails on reachable
states (see the counterexample), since an outstanding operation that
has already appended no longer needs its full budget. -/
theorem c5_log_budget_invariant (M L : Nat) (s : LogSt) (hr : LogReach M L s) :
    s.n + s.rem.sum ≤ L ∧ ∀ b ∈ s.rem, b ≤ M := by
  induction hr with
  | init => exact ⟨by simp [logInit], by simp [logInit]⟩
  | step s t _ hstep ih =>
    obtain ⟨ihsum, ihmem⟩ := ih
    cases hstep with
    | beginOp hc hle =>
      refine ⟨?_, ?_⟩
      · have hsum := listSumLeLenMul s.rem M ihmem
        simp only [List.sum_cons]
        calc s.n + (M + s.rem.sum) ≤ s.n + (M + s.rem.length * M) := by omega
          _ = s.n + (s.rem.length + 1) * M := by ring
          _ ≤ L := hle
      · intro b hb
        rcases List.mem_cons.mp hb with h1 | h1
        · exact h1 ▸ Nat.le_refl M
        · exact ihmem b h1
    | writeNew i h hp hguard =>
      refine ⟨?_, ?_⟩
      · have := listSumSetPred s.rem i h hp
        dsimp only
        omega
      · intro b hb
        rcases List.mem_or_eq_of_mem_set hb with h1 | h1
        · exact ihmem b h1
        · have hg : s.rem.get ⟨i, h⟩ ≤ M := ihmem _ (s.rem.get_mem i h)
          omega
    | writeAbsorb i h1 h2 h3 => exact ⟨ihsum, ihmem⟩
    | endOp i h hc =>
      refine ⟨?_, ?_⟩
      · have := listSumEraseIdxLe s.rem i
        dsimp only
        omega
      · intro b hb
        exact ihmem b (memOfMemEraseIdx s.rem i b hb)
    | commitEnd hc =>
      exact ⟨by simpa using Nat.le_trans (Nat.le_add_left _ _) ihsum, ihmem⟩

/-- Witness for C5: the invariant applied to the initial state at the
modelled parameter values. -/
theorem c5_witness : logInit.n + logInit.rem.sum ≤ LOGSIZE :=
  (c5_log_budget_invariant MAXOPBLOCKS LOGSIZE logInit LogReach.init).1

/-- Counterexample for C5 as stated: after three `begin_op`s at `n = 0`
(each allowed, since `0 + 3 * MAXOPBLOCKS ≤ LOGSIZE`) and one appending
`log_write`, the log is in the reachable state
`n = 1, outstanding = 3`, where
`n + outstanding * MAXOPBLOCKS = 31 > 30 = LOGSIZE`. -/
theorem c5_claimed_bound_fails :
    LogReach MAXOPBLOCKS LOGSIZE ⟨1, [9, 10, 10], false⟩ ∧
    ¬ ((1 : Nat) + [9, 10, 10].length * MAXOPBLOCKS ≤ LOGSIZE) := by
  constructor
  · have h0 : LogReach MAXOPBLOCKS LOGSIZE logInit := LogReach.init
    have h1 : LogReach MAXOPBLOCKS LOGSIZE ⟨0, [10], false⟩ :=
      LogReach.step _ _ h0 (LogStep.beginOp logInit rfl (by decide))
    have h2 : LogReach MAXOPBLOCKS LOGSIZE ⟨0, [10, 10], false⟩ :=
      LogReach.step _ _ h1 (LogStep.beginOp ⟨0, [10], false⟩ rfl (by decide))
    have h3 : LogReach MAXOPBLOCKS LOGSIZE ⟨0, [10, 10, 10], false⟩ :=
      LogReach.step _ _ h2 (LogStep.beginOp ⟨0, [10, 10], false⟩ rfl (by decide))
    exact LogReach.step _ _ h3
      (LogStep.writeNew ⟨0, [10, 10, 10], false⟩ 0 (by decide) (by decide) (by decide))
  · decide

/-- Writing a block's current content back leaves the disk unchanged. -/
theorem updD_self (d : Nat → Nat → Nat) (a : Nat) : updD d a (d a) = d := by
  funext x
  unfold updD
  by_cases hx : x = a
  · subst hx
    simp
  · simp [hx]

/-- Re-encoding the header decoded from a block reproduces the block:
the decode reads exactly the words the encode writes. -/
theorem encodeHdr_decodeHdr (Lsz : Nat) (b : Nat → Nat) :
    encodeHdr Lsz (decodeHdr b) b = b := by
  funext i
  unfold encodeHdr decodeHdr
  by_cases h0 : i = 0
  · subst h0
    simp
  · by_cases hL : i ≤ Lsz
    · simp only [h0, if_false, hL, if_true]
      congr 1
      omega
    · simp [h0, hL]

/-- C6 (confirmed): log recovery is idempotent — after one `recover`
the header block carries `n = 0`, so a second `recover` replays
nothing and rewrites the header block with exactly the words already
on it, for every log-array length, log start block and disk state. -/
theorem c6_recover_idempotent (Lsz start : Nat) (d : Nat → Nat → Nat) :
    recoverD Lsz start (recoverD Lsz start d) = recoverD Lsz start d := by
  set d1 := recoverD Lsz start d with hd1
  have hstart : d1 start = encodeHdr Lsz ⟨0, (decodeHdr (d start)).blk⟩
      (installTrans start (decodeHdr (d start)) d start) := by
    rw [hd1]
    unfold recoverD updD
    simp
  have hn0 : (decodeHdr (d1 start)).n = 0 := by
    rw [hstart]
    unfold decodeHdr encodeHdr
    simp
  have hins : installTrans start (decodeHdr (d1 start)) d1 = d1 := by
    unfold installTrans
    rw [hn0]
    simp
  have hhdr : (⟨0, (decodeHdr (d1 start)).blk⟩ : LogHdr) = decodeHdr (d1 start) := by
    rw [show (0 : Nat) = (decodeHdr (d1 start)).n from hn0.symm]
  show recoverD Lsz start d1 = d1
  simp only [recoverD]
  rw [hins, hhdr, encodeHdr_decodeHdr, updD_self]

/-- `dropWhile` never lengthens a list. -/
theorem lengthDropWhileLe (q : Nat → Bool) (l : List Nat) :
    (l.dropWhile q).length ≤ l.length := by
  induction l with
  | nil => simp
  | cons a t ih =>
    by_cases h : q a
    · simp only [List.dropWhile_cons, h, if_true, List.length_cons]
      omega
    · simp [List.dropWhile_cons, h]

/-- Trimming slashes never lengthens a path. -/
theorem trimSlashLengthLe (p : List Nat) : (trimSlash p).length ≤ p.length := by
  unfold trimSlash
  calc (((p.dropWhile (· == 47)).reverse.dropWhile (· == 47)).reverse).length
      = ((p.dropWhile (· == 47)).reverse.dropWhile (· == 47)).length :=
        List.length_reverse _
    _ ≤ (p.dropWhile (· == 47)).reverse.length := lengthDropWhileLe _ _
    _ = (p.dropWhile (· == 47)).length := List.length_reverse _
    _ ≤ p.length := lengthDropWhileLe _ _

/-- The part after the first slash is shorter than the split list. -/
theorem splitOnceSndLt (l : List Nat) :
    ∀ x y, splitOnce l = some (x, y) → y.length < l.length := by
  induction l with
  | nil => intro x y h; simp [splitOnce] at h
  | cons a t ih =>
    intro x y h
    by_cases ha : a = 47
    · simp only [splitOnce, ha, if_true, Option.some.injEq, Prod.mk.injEq] at h
      obtain ⟨-, hy⟩ := h
      subst hy
      simp
    · simp only [splitOnce, ha, if_false] at h
      cases hsp : splitOnce t with
      | none => rw [hsp] at h; simp at h
      | some q =>
        rw [hsp] at h
        have h2 : (a :: q.1, q.2) = (x, y) := Option.some.inj h
        have hy : q.2 = y := congrArg Prod.snd h2
        have hq := ih q.1 q.2 (by rw [hsp])
        rw [← hy]
        simp only [List.length_cons]
        omega

/-- Slash-free lists pass `dropWhile (· == 47)` unchanged. -/
theorem dropWhileSlashOfNotMem (c : List Nat) (h : 47 ∉ c) :
    c.dropWhile (· == 47) = c := by
  cases c with
  | nil => rfl
  | cons a t =>
    have ha : (a == 47) = false := by
      simp only [beq_eq_false_iff_ne, ne_eq]
      intro he
      exact h (he ▸ List.mem_cons_self a t)
    simp [List.dropWhile_cons, ha]

/-- Slash-free lists are unchanged by `trimSlash`. -/
theorem trimSlashOfNotMem (c : List Nat) (h : 47 ∉ c) : trimSlash c = c := by
  unfold trimSlash
  rw [dropWhileSlashOfNotMem c h,
    dropWhileSlashOfNotMem c.reverse (by simpa using h), List.reverse_reverse]

/-- `split_once('/')` misses on slash-free lists. -/
theorem splitOnceOfNotMem (c : List Nat) (h : 47 ∉ c) : splitOnce c = none := by
  induction c with
  | nil => rfl
  | cons a t ih =>
    have ha : a ≠ 47 := fun he => h (he ▸ List.mem_cons_self a t)
    have ht := ih (fun hm => h (List.mem_cons_of_mem a hm))
    simp [splitOnce, ha, ht]

/-- `lastCompGo` does not depend on the fuel, once the fuel exceeds the
path length. -/
theorem lastCompGoFuel (f : Nat) :
    ∀ (g : Nat) (p : List Nat), p.length < f → p.length < g →
      lastCompGo f p = lastCompGo g p := by
  induction f with
  | zero => intro g p hf _; omega
  | succ f ih =>
    intro g p hf hg
    cases g with
    | zero => omega
    | succ g =>
      cases hsp : splitOnce (trimSlash p) with
      | none => simp [lastCompGo, hsp]
      | some q =>
        obtain ⟨x, y⟩ := q
        have hlt : y.length < (trimSlash p).length := splitOnceSndLt _ x y hsp
        have hle := trimSlashLengthLe p
        simp only [lastCompGo, hsp]
        exact ih g y (by omega) (by omega)

/-- One splitting step preserves the last component. -/
theorem lastCompStep (p x y : List Nat)
    (hsp : splitOnce (trimSlash p) = some (x, y)) :
    lastComp p = lastComp y := by
  unfold lastComp
  have h1 : lastCompGo (p.length + 1) p = lastCompGo p.length y := by
    simp [lastCompGo, hsp]
  rw [h1]
  have hlt : y.length < (trimSlash p).length := splitOnceSndLt _ x y hsp
  have hle := trimSlashLengthLe p
  exact lastCompGoFuel p.length (y.length + 1) y (by omega) (by omega)

/-- When the trimmed path has no further slash, the last component is
the trimmed path itself. -/
theorem lastCompBase (p : List Nat) (hsp : splitOnce (trimSlash p) = none) :
    lastComp p = if trimSlash p = [] then none else some (trimSlash p) := by
  unfold lastComp
  simp [lastCompGo, hsp]

/-- C10 (corrected): `skip_elem` yields `(None, None)` on every bare
component of `DIRSIZ` or more bytes, and `namex` (any directory state,
any start inode, any fuel) resolves no path whose last component has
`DIRSIZ` or more bytes; a final component of 1 to `DIRSIZ - 1` bytes is
accepted by `skip_elem` when the remaining path is the bare component
(the no-slash branch measures the untrimmed remainder, so surrounding
slashes count toward the limit — see the counterexample). -/
theorem c10_final_component_length :
    (∀ c : List Nat, 47 ∉ c → DIRSIZ ≤ c.length → skipElem c = (none, none)) ∧
    (∀ (isDir : Nat → Bool) (lookup : Nat → List Nat → Option Nat) (parent : Bool)
        (fuel ip : Nat) (p c : List Nat),
        lastComp p = some c → DIRSIZ ≤ c.length →
        namexGo isDir lookup parent fuel ip p = none) ∧
    (∀ c : List Nat, 47 ∉ c → 0 < c.length → c.length < DIRSIZ →
        skipElem c = (some c, none)) := by
  have hskipNone : ∀ c : List Nat, 47 ∉ c → DIRSIZ ≤ c.length →
      skipElem c = (none, none) := by
    intro c hc hlen
    unfold skipElem
    rw [trimSlashOfNotMem c hc, splitOnceOfNotMem c hc]
    rw [if_neg (by simp only [DIRSIZ] at hlen ⊢; omega)]
  refine ⟨hskipNone, ?_, ?_⟩
  · intro isDir lookup parent fuel
    induction fuel with
    | zero => intro ip p c hlc hlen; rfl
    | succ fuel ih =>
      intro ip p c hlc hlen
      by_cases hd : isDir ip = true
      · cases hsp : splitOnce (trimSlash p) with
        | none =>
          rw [lastCompBase p hsp] at hlc
          by_cases htr : trimSlash p = []
          · rw [if_pos htr] at hlc
            exact absurd hlc (by simp)
          · rw [if_neg htr] at hlc
            have hceq : trimSlash p = c := Option.some.inj hlc
            have hlenp : DIRSIZ ≤ p.length :=
              calc DIRSIZ ≤ c.length := hlen
                _ = (trimSlash p).length := by rw [hceq]
                _ ≤ p.length := trimSlashLengthLe p
            have hskip : skipElem p = (none, none) := by
              unfold skipElem
              rw [hsp]
              dsimp only
              rw [if_neg (by simp only [DIRSIZ] at hlenp ⊢; omega)]
            simp [namexGo, hd, hskip]
        | some q =>
          obtain ⟨name, rest⟩ := q
          have hlc2 : lastComp rest = some c := by
            rw [← lastCompStep p name rest hsp]
            exact hlc
          by_cases hname : name.length ≤ DIRSIZ
          · have hskip : skipElem p = (some name, some rest) := by
              unfold skipElem
              rw [hsp]
              dsimp only
              rw [if_pos hname]
            cases hlu : lookup ip name with
            | none => simp [namexGo, hd, hskip, hlu]
            | some nip =>
              have hrec := ih nip rest c hlc2 hlen
              simp [namexGo, hd, hskip, hlu, hrec]
          · have hskip : skipElem p = (none, none) := by
              unfold skipElem
              rw [hsp]
              dsimp only
              rw [if_neg hname]
            simp [namexGo, hd, hskip]
      · have hd2 : isDir ip = false := by
          cases hval : isDir ip
          · rfl
          · exact absurd hval hd
        simp [namexGo, hd2]
  · intro c hc h0 hlt
    unfold skipElem
    rw [trimSlashOfNotMem c hc, splitOnceOfNotMem c hc]
    rw [if_pos ⟨h0, hlt⟩]

/-- Witness for C10: a bare 14-byte final component (14 letters `a`) is
rejected by `namex` even with every lookup succeeding, and a bare
1-byte component is accepted by `skip_elem`. -/
theorem c10_witness :
    namexGo allDir lookupAlways false 15 1 (List.replicate 14 97) = none ∧
    skipElem [97] = (some [97], none) :=
  ⟨c10_final_component_length.2.1 allDir lookupAlways false 15 1
      (List.replicate 14 97) (List.replicate 14 97) (by decide) (by decide),
    c10_final_component_length.2.2 [97] (by decide) (by decide) (by decide)⟩

/-- Counterexample for C10 as stated: the absolute path
`/aaaaaaaaaaaaa` has a final (and only) component of 13 bytes, yet
`skip_elem` yields `(None, None)` — its no-slash branch tests the
untrimmed 14-byte remainder against `DIRSIZ` — and `namex` resolves no
inode even though every lookup succeeds; so final components of length
1 to 13 are not always accepted. -/
theorem c10_len13_rejected :
    lastComp path13abs = some (List.replicate 13 97) ∧
    (List.replicate 13 97).length = 13 ∧
    skipElem path13abs = (none, none) ∧
    namexM allDir lookupAlways false 1 path13abs = none := by
  refine ⟨by decide, by decide, by decide, by decide⟩
